import Mathlib

/-!
Verification of the windowed telemetry export pipeline of
thingsboard-scripts (src/export/telemetry.py, src/export/get_attribute.py).

The definitions below are shallow embeddings of the Python source:
timestamps are integers (milliseconds since epoch modelled as Int),
Python dicts keyed by timestamp or attribute name are association lists
preserving insertion order (faithful to CPython dict semantics), and the
pandas DataFrame accumulated per device is a list of rows.
-/

/-! ## Time Window Planner

Embedding of the while loop of telemetry.py lines 184-220 (the part that
plans the time windows):

  dt_current = dt_start
  while dt_current < dt_end:
      ts = dt_current
      te = min(dt_current + batch_window, dt_end)
      ... (fetch batch [ts, te)) ...
      dt_current += batch_window

The loop only terminates for a positive window, hence the conjunct
0 < window in the guard; every claim about the planner assumes a
positive batch duration. -/

def planBatches (dtCurrent dtEnd window : Int) : List (Int × Int) :=
  if _h : dtCurrent < dtEnd ∧ 0 < window then
    (dtCurrent, min (dtCurrent + window) dtEnd) :: planBatches (dtCurrent + window) dtEnd window
  else
    []
termination_by (dtEnd - dtCurrent).toNat
decreasing_by
  omega

/-- Unfolding lemma: one loop iteration when the guard holds. -/
lemma planBatches_of_lt {t0 t1 w : Int} (h : t0 < t1) (hw : 0 < w) :
    planBatches t0 t1 w = (t0, min (t0 + w) t1) :: planBatches (t0 + w) t1 w := by
  rw [planBatches.eq_def, dif_pos ⟨h, hw⟩]

/-- Unfolding lemma: the loop body never runs when the range is degenerate. -/
lemma planBatches_of_ge {t0 t1 w : Int} (h : t1 ≤ t0) : planBatches t0 t1 w = [] := by
  rw [planBatches.eq_def, dif_neg]
  omega

/-- Induction principle following the loop structure: the property holds
past the end of the range, and is preserved by one window step. -/
lemma planBatches_ind (t1 w : Int) (hw : 0 < w) (P : Int → Prop)
    (base : ∀ t, t1 ≤ t → P t)
    (step : ∀ t, t < t1 → P (t + w) → P t) :
    ∀ t, P t := by
  have key : ∀ n : Nat, ∀ t, (t1 - t).toNat ≤ n → P t := by
    intro n
    induction n with
    | zero =>
      intro t ht
      exact base t (by omega)
    | succ n ih =>
      intro t ht
      by_cases h : t < t1
      · exact step t h (ih (t + w) (by omega))
      · exact base t (by omega)
  intro t
  exact key (t1 - t).toNat t le_rfl

/-- Closed form for the i-th planned batch (optional indexing version). -/
lemma planBatches_getElem? (t1 w : Int) (hw : 0 < w) :
    ∀ t0, ∀ i, i < (planBatches t0 t1 w).length →
      (planBatches t0 t1 w)[i]? = some (t0 + i * w, min (t0 + (i + 1) * w) t1) := by
  refine planBatches_ind t1 w hw
    (fun t0 => ∀ i, i < (planBatches t0 t1 w).length →
      (planBatches t0 t1 w)[i]? = some (t0 + i * w, min (t0 + (i + 1) * w) t1)) ?_ ?_
  · intro t ht i hi
    rw [planBatches_of_ge ht] at hi
    simp at hi
  · intro t ht ih i hi
    rw [planBatches_of_lt ht hw] at hi ⊢
    cases i with
    | zero =>
      simp
    | succ i =>
      simp only [List.getElem?_cons_succ]
      rw [ih i (by simpa using hi)]
      have h1 : t + w + (i : Int) * w = t + (i + 1 : Nat) * w := by push_cast; ring
      have h2 : t + w + ((i : Int) + 1) * w = t + ((i + 1 : Nat) + 1) * w := by push_cast; ring
      rw [h1, h2]

/-- Closed form for the i-th planned batch. -/
lemma planBatches_getElem (t1 w : Int) (hw : 0 < w) (t0 : Int) (i : Nat)
    (hi : i < (planBatches t0 t1 w).length) :
    (planBatches t0 t1 w)[i] = (t0 + i * w, min (t0 + (i + 1) * w) t1) := by
  have h := planBatches_getElem? t1 w hw t0 i hi
  rw [List.getElem?_eq_getElem hi] at h
  exact Option.some_injective _ h

/-- The number of planned batches is the ceiling of the range length
divided by the window, written with natural-number ceiling division. -/
lemma planBatches_length (t1 w : Int) (hw : 0 < w) :
    ∀ t0, (planBatches t0 t1 w).length = ((t1 - t0).toNat + (w.toNat - 1)) / w.toNat := by
  refine planBatches_ind t1 w hw
    (fun t0 => (planBatches t0 t1 w).length = ((t1 - t0).toNat + (w.toNat - 1)) / w.toNat) ?_ ?_
  · intro t ht
    rw [planBatches_of_ge ht]
    have h1 : (t1 - t).toNat = 0 := by omega
    rw [h1]
    simp only [List.length_nil, Nat.zero_add]
    exact (Nat.div_eq_of_lt (by omega)).symm
  · intro t ht ih
    rw [planBatches_of_lt ht hw, List.length_cons, ih]
    have ha : 1 ≤ (t1 - t).toNat := by omega
    have hd : 1 ≤ w.toNat := by omega
    by_cases hcase : w.toNat ≤ (t1 - t).toNat
    · have he : (t1 - t).toNat + (w.toNat - 1) =
          ((t1 - (t + w)).toNat + (w.toNat - 1)) + w.toNat := by omega
      rw [he, Nat.add_div_right _ (by omega)]
    · have h0 : (t1 - (t + w)).toNat = 0 := by omega
      rw [h0]
      have hr : (0 + (w.toNat - 1)) / w.toNat = 0 := Nat.div_eq_of_lt (by omega)
      rw [hr]
      have h1 : ((t1 - t).toNat + (w.toNat - 1)) / w.toNat = 1 :=
        Nat.div_eq_of_lt_le (by omega) (by omega)
      omega

/-- Every planned batch starts strictly before the end of the range. -/
lemma planBatches_start_lt (t1 w : Int) (hw : 0 < w) :
    ∀ t0, ∀ i : Nat, i < (planBatches t0 t1 w).length → t0 + i * w < t1 := by
  refine planBatches_ind t1 w hw
    (fun t0 => ∀ i : Nat, i < (planBatches t0 t1 w).length → t0 + i * w < t1) ?_ ?_
  · intro t ht i hi
    rw [planBatches_of_ge ht] at hi
    simp at hi
  · intro t ht ih i hi
    cases i with
    | zero => simpa using ht
    | succ i =>
      rw [planBatches_of_lt ht hw, List.length_cons] at hi
      have h := ih i (by omega)
      have : t + (i + 1 : Nat) * w = t + w + (i : Int) * w := by push_cast; ring
      omega

/-- The range end never exceeds the start plus the total planned span. -/
lemma planBatches_end_le (t1 w : Int) (hw : 0 < w) :
    ∀ t0, t1 ≤ t0 + (planBatches t0 t1 w).length * w := by
  refine planBatches_ind t1 w hw
    (fun t0 => t1 ≤ t0 + (planBatches t0 t1 w).length * w) ?_ ?_
  · intro t ht
    rw [planBatches_of_ge ht]
    simpa using ht
  · intro t ht ih
    rw [planBatches_of_lt ht hw, List.length_cons]
    have h : t + w + (planBatches (t + w) t1 w).length * w =
        t + ((planBatches (t + w) t1 w).length + 1 : Nat) * w := by push_cast; ring
    omega

/-- Consecutive planned batches share their boundary point. -/
lemma planBatches_chain (t0 t1 w : Int) (hw : 0 < w) :
    List.Chain' (fun a b : Int × Int => a.2 = b.1) (planBatches t0 t1 w) := by
  rw [List.chain'_iff_get]
  intro i h
  have hi : i < (planBatches t0 t1 w).length := by omega
  have hi1 : i + 1 < (planBatches t0 t1 w).length := by omega
  rw [List.get_eq_getElem, List.get_eq_getElem,
    planBatches_getElem t1 w hw t0 i hi, planBatches_getElem t1 w hw t0 (i + 1) hi1]
  have hs := planBatches_start_lt t1 w hw t0 (i + 1) hi1
  push_cast at hs ⊢
  exact min_eq_left (le_of_lt hs)

/-- Distinct planned batches do not overlap: any earlier batch ends no
later than a later batch starts. -/
lemma planBatches_pairwise (t0 t1 w : Int) (hw : 0 < w) :
    (planBatches t0 t1 w).Pairwise (fun a b : Int × Int => a.2 ≤ b.1) := by
  rw [List.pairwise_iff_get]
  intro i j hij
  rw [List.get_eq_getElem, List.get_eq_getElem,
    planBatches_getElem t1 w hw t0 i i.isLt, planBatches_getElem t1 w hw t0 j j.isLt]
  have hij' : ((i : Nat) : Int) + 1 ≤ ((j : Nat) : Int) := by exact_mod_cast hij
  have hmul : (((i : Nat) : Int) + 1) * w ≤ ((j : Nat) : Int) * w :=
    mul_le_mul_of_nonneg_right hij' (le_of_lt hw)
  have hle : t0 + (((i : Nat) : Int) + 1) * w ≤ t0 + ((j : Nat) : Int) * w := by linarith
  exact le_trans (min_le_left _ _) hle

/-- The planned batches cover exactly the half-open range. -/
lemma planBatches_union (t1 w : Int) (hw : 0 < w) :
    ∀ t0, ∀ x : Int,
      (∃ p ∈ planBatches t0 t1 w, p.1 ≤ x ∧ x < p.2) ↔ (t0 ≤ x ∧ x < t1) := by
  refine planBatches_ind t1 w hw
    (fun t0 => ∀ x : Int,
      (∃ p ∈ planBatches t0 t1 w, p.1 ≤ x ∧ x < p.2) ↔ (t0 ≤ x ∧ x < t1)) ?_ ?_
  · intro t ht x
    rw [planBatches_of_ge ht]
    simp only [List.not_mem_nil, false_and, exists_false, false_iff, not_and, not_lt]
    omega
  · intro t ht ih x
    rw [planBatches_of_lt ht hw]
    simp only [List.mem_cons, exists_eq_or_imp]
    rw [ih x]
    omega

/-- Every batch except possibly the last spans exactly one window. -/
lemma planBatches_duration (t0 t1 w : Int) (hw : 0 < w) (i : Nat)
    (hi : i + 1 < (planBatches t0 t1 w).length) :
    ((planBatches t0 t1 w)[i]?.map (fun p => p.2 - p.1)) = some w := by
  rw [planBatches_getElem? t1 w hw t0 i (by omega)]
  have hs := planBatches_start_lt t1 w hw t0 (i + 1) hi
  push_cast at hs
  simp only [Option.map_some', Option.some.injEq]
  rw [min_eq_left (le_of_lt hs)]
  ring

/-- Every planned batch is nonempty and no longer than one window. -/
lemma planBatches_mem_bounds (t0 t1 w : Int) (hw : 0 < w) (p : Int × Int)
    (hp : p ∈ planBatches t0 t1 w) : 0 < p.2 - p.1 ∧ p.2 - p.1 ≤ w := by
  rw [List.mem_iff_getElem] at hp
  obtain ⟨i, hi, hip⟩ := hp
  rw [planBatches_getElem t1 w hw t0 i hi] at hip
  subst hip
  have hs := planBatches_start_lt t1 w hw t0 i hi
  constructor
  · have h1 : t0 + (i : Int) * w < t0 + ((i : Int) + 1) * w := by nlinarith
    have h2 : t0 + (i : Int) * w < min (t0 + ((i : Int) + 1) * w) t1 := lt_min h1 hs
    exact sub_pos.mpr h2
  · have h3 : min (t0 + ((i : Int) + 1) * w) t1 ≤ t0 + ((i : Int) + 1) * w := min_le_left _ _
    have h4 : min (t0 + ((i : Int) + 1) * w) t1 - (t0 + (i : Int) * w) ≤ w := by nlinarith
    exact h4

/-- The final planned batch ends exactly at the end of the range. -/
lemma planBatches_getLast (t0 t1 w : Int) (hw : 0 < w) (h : t0 < t1) :
    (planBatches t0 t1 w).getLast?.map Prod.snd = some t1 := by
  have hne : planBatches t0 t1 w ≠ [] := by
    rw [planBatches_of_lt h hw]
    simp
  have hlen : 1 ≤ (planBatches t0 t1 w).length := by
    cases hl : planBatches t0 t1 w with
    | nil => exact absurd hl hne
    | cons a l => simp
  rw [List.getLast?_eq_getLast _ hne, List.getLast_eq_getElem,
    planBatches_getElem t1 w hw t0 ((planBatches t0 t1 w).length - 1) (by omega)]
  have hend := planBatches_end_le t1 w hw t0
  have hcast : (((planBatches t0 t1 w).length - 1 : Nat) : Int) + 1 =
      ((planBatches t0 t1 w).length : Int) := by omega
  simp only [Option.map_some', Option.some.injEq]
  rw [hcast]
  exact min_eq_right hend

/-- C1: For every range [T0, T1) and every batch duration D > 0, the Time
Window Planner (the while loop advancing dt_current by batch_window and
clamping each batch end with min) produces a finite sequence of batches
that are contiguous and non-overlapping, whose union exactly equals
[T0, T1): the first batch starts at T0, every batch has duration D except
possibly the last, the final batch's end equals T1, and the batch count
equals the ceiling of (T1 - T0) / D; when T0 >= T1 the sequence is empty. -/
theorem c1_time_window_planner_partition (t0 t1 w : Int) (hw : 0 < w) :
    (t1 ≤ t0 → planBatches t0 t1 w = []) ∧
    (t0 < t1 → (planBatches t0 t1 w).head?.map Prod.fst = some t0) ∧
    List.Chain' (fun a b : Int × Int => a.2 = b.1) (planBatches t0 t1 w) ∧
    (planBatches t0 t1 w).Pairwise (fun a b : Int × Int => a.2 ≤ b.1) ∧
    (∀ x : Int, (∃ p ∈ planBatches t0 t1 w, p.1 ≤ x ∧ x < p.2) ↔ (t0 ≤ x ∧ x < t1)) ∧
    (∀ i : Nat, i + 1 < (planBatches t0 t1 w).length →
      ((planBatches t0 t1 w)[i]?.map (fun p => p.2 - p.1)) = some w) ∧
    (∀ p ∈ planBatches t0 t1 w, 0 < p.2 - p.1 ∧ p.2 - p.1 ≤ w) ∧
    (t0 < t1 → (planBatches t0 t1 w).getLast?.map Prod.snd = some t1) ∧
    (planBatches t0 t1 w).length = ((t1 - t0).toNat + (w.toNat - 1)) / w.toNat := by
  refine ⟨fun h => planBatches_of_ge h, fun h => ?_, planBatches_chain t0 t1 w hw,
    planBatches_pairwise t0 t1 w hw, planBatches_union t1 w hw t0,
    fun i hi => planBatches_duration t0 t1 w hw i hi,
    fun p hp => planBatches_mem_bounds t0 t1 w hw p hp,
    fun h => planBatches_getLast t0 t1 w hw h,
    planBatches_length t1 w hw t0⟩
  rw [planBatches_of_lt h hw]
  rfl

/-- C1 witness: the planner applied to the concrete range [0, 50) with
window 24 (three batches: [0,24), [24,48), [48,50)). -/
theorem c1_time_window_planner_partition_witness :
    (0 : Int) < 24 ∧ (0 : Int) < 50 ∧
    (planBatches 0 50 24).head?.map Prod.fst = some 0 ∧
    (planBatches 0 50 24).getLast?.map Prod.snd = some 50 ∧
    (planBatches 0 50 24).length = (((50 : Int) - 0).toNat + ((24 : Int).toNat - 1)) / (24 : Int).toNat := by
  have h := c1_time_window_planner_partition 0 50 24 (by norm_num)
  exact ⟨by norm_num, by norm_num, h.2.1 (by norm_num), h.2.2.2.2.2.2.2.1 (by norm_num),
    h.2.2.2.2.2.2.2.2⟩

/-! ## Sample Merger

Embedding of the per-batch merge loop of telemetry.py lines 204-212:

  records = empty dict
  for key, samples in res.items():
      for sample in samples:
          ts = sample["ts"]
          value = sample["value"]
          row = records.setdefault(ts, singleton dict mapping "ts" to ts)
          row[key] = value

Python dicts preserve insertion order and hold at most one entry per key,
so both the records dict (keyed by timestamp) and each row dict (keyed by
column name) are modelled as insertion-ordered association lists whose
update operation overwrites an existing entry in place and otherwise
appends. Telemetry values are modelled as integers. -/

structure Sample where
  ts : Int
  value : Int
deriving DecidableEq, Repr

/-- A row dict: association list from column name to value. -/
abbrev Record := List (String × Int)

/-- Assignment row[k] = v on a Python dict: overwrite in place if the key
exists, otherwise append at the end. -/
def setField (fields : Record) (k : String) (v : Int) : Record :=
  if fields.any (fun p => p.1 == k) then
    fields.map (fun p => if p.1 == k then (k, v) else p)
  else
    fields ++ [(k, v)]

/-- One iteration of the inner loop: records.setdefault of the timestamp
to a fresh singleton row, followed by row[key] = value. -/
def insertSample (records : List (Int × Record)) (key : String) (s : Sample) :
    List (Int × Record) :=
  if records.any (fun p => p.1 == s.ts) then
    records.map (fun p => if p.1 == s.ts then (p.1, setField p.2 key s.value) else p)
  else
    records ++ [(s.ts, setField [("ts", s.ts)] key s.value)]

/-- The inner loop over one key's sample list. -/
def insertSamples (records : List (Int × Record)) (key : String) (samples : List Sample) :
    List (Int × Record) :=
  samples.foldl (fun r s => insertSample r key s) records

/-- The full merge loop over the response of one batch. -/
def mergeBatch (res : List (String × List Sample)) : List (Int × Record) :=
  res.foldl (fun records kv => insertSamples records kv.1 kv.2) []

/-- Keys of a setField result: unchanged when overwriting, extended by the
new key when appending. -/
lemma setField_fst (fields : Record) (k : String) (v : Int) :
    (setField fields k v).map Prod.fst =
      if k ∈ fields.map Prod.fst then fields.map Prod.fst
      else fields.map Prod.fst ++ [k] := by
  unfold setField
  by_cases h : k ∈ fields.map Prod.fst
  · have hany : fields.any (fun p => p.1 == k) = true := by
      rw [List.any_eq_true]
      rw [List.mem_map] at h
      obtain ⟨p, hp, hpk⟩ := h
      exact ⟨p, hp, by simp [hpk]⟩
    rw [if_pos hany, if_pos h, List.map_map]
    apply List.map_congr_left
    intro p _
    by_cases hpk : p.1 = k
    · simp [hpk]
    · simp [hpk]
  · have hany : fields.any (fun p => p.1 == k) = false := by
      rw [List.any_eq_false]
      intro p hp
      simp only [beq_iff_eq]
      intro hpk
      exact h (List.mem_map.mpr ⟨p, hp, hpk⟩)
    rw [if_neg (by simp [hany]), if_neg h]
    simp

/-- setField makes the assigned key present. -/
lemma setField_mem_self (fields : Record) (k : String) (v : Int) :
    k ∈ (setField fields k v).map Prod.fst := by
  rw [setField_fst]
  by_cases h : k ∈ fields.map Prod.fst
  · rw [if_pos h]; exact h
  · rw [if_neg h]; simp

/-- setField never removes a key. -/
lemma setField_mem_mono (fields : Record) (k k' : String) (v : Int)
    (h : k' ∈ fields.map Prod.fst) : k' ∈ (setField fields k v).map Prod.fst := by
  rw [setField_fst]
  by_cases hc : k ∈ fields.map Prod.fst
  · rw [if_pos hc]; exact h
  · rw [if_neg hc]; simp [h]

/-- The membership test used by the merge loop agrees with list membership
of the timestamps. -/
lemma any_fst_beq (records : List (Int × Record)) (t : Int) :
    records.any (fun p => p.1 == t) = true ↔ t ∈ records.map Prod.fst := by
  rw [List.any_eq_true, List.mem_map]
  constructor
  · rintro ⟨p, hp, hbeq⟩
    exact ⟨p, hp, by simpa using hbeq⟩
  · rintro ⟨p, hp, heq⟩
    exact ⟨p, hp, by simp [heq]⟩

/-- Timestamps after one insertion: unchanged when the timestamp exists,
extended by the new timestamp otherwise. -/
lemma insertSample_fst (records : List (Int × Record)) (key : String) (s : Sample) :
    (insertSample records key s).map Prod.fst =
      if s.ts ∈ records.map Prod.fst then records.map Prod.fst
      else records.map Prod.fst ++ [s.ts] := by
  unfold insertSample
  by_cases h : s.ts ∈ records.map Prod.fst
  · rw [if_pos ((any_fst_beq records s.ts).mpr h), if_pos h, List.map_map]
    apply List.map_congr_left
    intro p _
    by_cases hp : p.1 = s.ts <;> simp [hp]
  · have hany : records.any (fun p => p.1 == s.ts) = false := by
      rw [← Bool.not_eq_true, any_fst_beq]
      exact h
    rw [if_neg (by simp [hany]), if_neg h]
    simp

/-- A timestamp is present after an insertion iff it was present before or
is the inserted sample's timestamp. -/
lemma insertSample_fst_mem (records : List (Int × Record)) (key : String) (s : Sample)
    (t : Int) :
    t ∈ (insertSample records key s).map Prod.fst ↔
      t ∈ records.map Prod.fst ∨ t = s.ts := by
  rw [insertSample_fst]
  by_cases h : s.ts ∈ records.map Prod.fst
  · rw [if_pos h]
    constructor
    · exact Or.inl
    · rintro (ht | rfl)
      · exact ht
      · exact h
  · rw [if_neg h]
    simp [or_comm]

/-- Insertion preserves distinctness of the record timestamps. -/
lemma insertSample_nodup (records : List (Int × Record)) (key : String) (s : Sample)
    (hnd : (records.map Prod.fst).Nodup) :
    ((insertSample records key s).map Prod.fst).Nodup := by
  rw [insertSample_fst]
  by_cases h : s.ts ∈ records.map Prod.fst
  · rw [if_pos h]; exact hnd
  · rw [if_neg h]
    simp [List.nodup_append, hnd, h]

/-- A timestamp is present after the inner loop iff it was present before
or occurs in the processed sample list. -/
lemma insertSamples_fst_mem (key : String) (t : Int) :
    ∀ samples : List Sample, ∀ records,
      (t ∈ (insertSamples records key samples).map Prod.fst ↔
        t ∈ records.map Prod.fst ∨ t ∈ samples.map Sample.ts) := by
  intro samples
  induction samples with
  | nil => intro records; simp [insertSamples]
  | cons s rest ih =>
    intro records
    show t ∈ (insertSamples (insertSample records key s) key rest).map Prod.fst ↔ _
    rw [ih, insertSample_fst_mem]
    simp [or_assoc, or_comm, or_left_comm]

/-- The inner loop preserves distinctness of the record timestamps. -/
lemma insertSamples_nodup (key : String) :
    ∀ samples : List Sample, ∀ records,
      (records.map Prod.fst).Nodup →
      ((insertSamples records key samples).map Prod.fst).Nodup := by
  intro samples
  induction samples with
  | nil => intro records h; exact h
  | cons s rest ih =>
    intro records h
    exact ih (insertSample records key s) (insertSample_nodup records key s h)

/-- A timestamp appears in the merged batch iff some key's response holds
a sample at that timestamp (stated for an arbitrary fold start). -/
lemma mergeBatch_fold_fst_mem (t : Int) :
    ∀ res : List (String × List Sample), ∀ records,
      (t ∈ (res.foldl (fun r kv => insertSamples r kv.1 kv.2) records).map Prod.fst ↔
        t ∈ records.map Prod.fst ∨ ∃ kv ∈ res, t ∈ kv.2.map Sample.ts) := by
  intro res
  induction res with
  | nil => intro records; simp
  | cons kv rest ih =>
    intro records
    rw [List.foldl_cons, ih, insertSamples_fst_mem]
    constructor
    · rintro ((h | h) | ⟨kv', hkv', ht⟩)
      · exact Or.inl h
      · exact Or.inr ⟨kv, List.mem_cons_self kv rest, h⟩
      · exact Or.inr ⟨kv', List.mem_cons_of_mem kv hkv', ht⟩
    · rintro (h | ⟨kv', hkv', ht⟩)
      · exact Or.inl (Or.inl h)
      · rcases List.mem_cons.mp hkv' with rfl | hkv'
        · exact Or.inl (Or.inr ht)
        · exact Or.inr ⟨kv', hkv', ht⟩

/-- A timestamp appears in the merged batch iff some key's response holds
a sample at that timestamp. -/
lemma mergeBatch_fst_mem (res : List (String × List Sample)) (t : Int) :
    t ∈ (mergeBatch res).map Prod.fst ↔ ∃ kv ∈ res, t ∈ kv.2.map Sample.ts := by
  rw [mergeBatch, mergeBatch_fold_fst_mem]
  simp

/-- The merged batch holds at most one record per timestamp. -/
lemma mergeBatch_nodup (res : List (String × List Sample)) :
    ((mergeBatch res).map Prod.fst).Nodup := by
  rw [mergeBatch]
  have key : ∀ res' : List (String × List Sample), ∀ records,
      (records.map Prod.fst).Nodup →
      ((res'.foldl (fun r kv => insertSamples r kv.1 kv.2) records).map Prod.fst).Nodup := by
    intro res'
    induction res' with
    | nil => intro records h; exact h
    | cons kv rest ih =>
      intro records h
      exact ih _ (insertSamples_nodup kv.1 kv.2 records h)
  exact key res [] (by simp)

/-- A record list with distinct timestamps containing a timestamp has
exactly one entry for it. -/
lemma filter_fst_length_one (t : Int) :
    ∀ l : List (Int × Record), (l.map Prod.fst).Nodup → t ∈ l.map Prod.fst →
      (l.filter (fun p => p.1 == t)).length = 1 := by
  intro l
  induction l with
  | nil => intro _ h; simp at h
  | cons a l ih =>
    intro hnd hmem
    rw [List.map_cons, List.nodup_cons] at hnd
    by_cases ha : a.1 = t
    · rw [List.filter_cons_of_pos (by simp [ha])]
      have hnone : l.filter (fun p => p.1 == t) = [] := by
        rw [List.filter_eq_nil_iff]
        intro p hp
        simp only [beq_iff_eq]
        intro hpt
        exact hnd.1 (ha ▸ hpt ▸ List.mem_map.mpr ⟨p, hp, rfl⟩)
      rw [hnone]
      rfl
    · rw [List.filter_cons_of_neg (by simp [ha])]
      apply ih hnd.2
      rw [List.map_cons, List.mem_cons] at hmem
      rcases hmem with h | h
      · exact absurd h.symm ha
      · exact h

/-- Once every record at a timestamp holds a column, a further insertion
keeps it so (insertions only grow rows, and fresh rows get fresh
timestamps). -/
lemma insertSample_keeps_key (records : List (Int × Record)) (key : String) (s : Sample)
    (t : Int) (k : String)
    (hmem : t ∈ records.map Prod.fst)
    (hkey : ∀ p ∈ records, p.1 = t → k ∈ p.2.map Prod.fst) :
    t ∈ (insertSample records key s).map Prod.fst ∧
      ∀ p ∈ insertSample records key s, p.1 = t → k ∈ p.2.map Prod.fst := by
  constructor
  · rw [insertSample_fst_mem]
    exact Or.inl hmem
  · unfold insertSample
    by_cases h : records.any (fun p => p.1 == s.ts) = true
    · rw [if_pos h]
      intro p hp hpt
      rw [List.mem_map] at hp
      obtain ⟨q, hq, hqp⟩ := hp
      by_cases hqts : q.1 = s.ts
      · rw [if_pos (by simp [hqts])] at hqp
        subst hqp
        exact setField_mem_mono _ _ _ _ (hkey q hq hpt)
      · rw [if_neg (by simp [hqts])] at hqp
        subst hqp
        exact hkey q hq hpt
    · rw [if_neg h]
      intro p hp hpt
      rcases List.mem_append.mp hp with hp | hp
      · exact hkey p hp hpt
      · rw [List.mem_singleton] at hp
        subst hp
        rw [any_fst_beq] at h
        have hin : s.ts ∈ records.map Prod.fst := by
          have hts : s.ts = t := hpt
          rw [hts]
          exact hmem
        exact absurd hin h

/-- The inner loop keeps an established column at a timestamp. -/
lemma insertSamples_keeps_key (key : String) (t : Int) (k : String) :
    ∀ samples : List Sample, ∀ records,
      t ∈ records.map Prod.fst →
      (∀ p ∈ records, p.1 = t → k ∈ p.2.map Prod.fst) →
      t ∈ (insertSamples records key samples).map Prod.fst ∧
        ∀ p ∈ insertSamples records key samples, p.1 = t → k ∈ p.2.map Prod.fst := by
  intro samples
  induction samples with
  | nil => intro records h1 h2; exact ⟨h1, h2⟩
  | cons s rest ih =>
    intro records h1 h2
    have step := insertSample_keeps_key records key s t k h1 h2
    exact ih (insertSample records key s) step.1 step.2

/-- Processing one key's sample list establishes that key on every record
whose timestamp occurs in the list. -/
lemma insertSamples_establishes (key : String) (t : Int) :
    ∀ samples : List Sample, ∀ records,
      t ∈ samples.map Sample.ts →
      t ∈ (insertSamples records key samples).map Prod.fst ∧
        ∀ p ∈ insertSamples records key samples, p.1 = t → key ∈ p.2.map Prod.fst := by
  intro samples
  induction samples with
  | nil => intro records h; simp at h
  | cons s rest ih =>
    intro records ht
    by_cases hts : s.ts = t
    · have hbase : t ∈ (insertSample records key s).map Prod.fst ∧
          ∀ p ∈ insertSample records key s, p.1 = t → key ∈ p.2.map Prod.fst := by
        constructor
        · rw [insertSample_fst_mem]
          exact Or.inr hts.symm
        · unfold insertSample
          by_cases h : records.any (fun p => p.1 == s.ts) = true
          · rw [if_pos h]
            intro p hp hpt
            rw [List.mem_map] at hp
            obtain ⟨q, hq, hqp⟩ := hp
            by_cases hqts : q.1 = s.ts
            · rw [if_pos (by simp [hqts])] at hqp
              subst hqp
              exact setField_mem_self _ _ _
            · rw [if_neg (by simp [hqts])] at hqp
              subst hqp
              exact absurd (hpt.trans hts.symm) hqts
          · rw [if_neg h]
            intro p hp hpt
            rcases List.mem_append.mp hp with hp | hp
            · rw [any_fst_beq] at h
              have hin : s.ts ∈ records.map Prod.fst :=
                List.mem_map.mpr ⟨p, hp, by rw [hpt, ← hts]⟩
              exact absurd hin h
            · rw [List.mem_singleton] at hp
              subst hp
              exact setField_mem_self _ _ _
      exact insertSamples_keeps_key key t key rest (insertSample records key s)
        hbase.1 hbase.2
    · have ht' : t ∈ rest.map Sample.ts := by
        rw [List.map_cons, List.mem_cons] at ht
        rcases ht with h | h
        · exact absurd h.symm hts
        · exact h
      exact ih (insertSample records key s) ht'

/-- Establishment survives the remaining outer-loop iterations. -/
lemma mergeBatch_fold_keeps_key (t : Int) (k : String) :
    ∀ post : List (String × List Sample), ∀ records,
      t ∈ records.map Prod.fst →
      (∀ p ∈ records, p.1 = t → k ∈ p.2.map Prod.fst) →
      t ∈ (post.foldl (fun r kv => insertSamples r kv.1 kv.2) records).map Prod.fst ∧
        ∀ p ∈ post.foldl (fun r kv => insertSamples r kv.1 kv.2) records,
          p.1 = t → k ∈ p.2.map Prod.fst := by
  intro post
  induction post with
  | nil => intro records h1 h2; exact ⟨h1, h2⟩
  | cons kv rest ih =>
    intro records h1 h2
    have step := insertSamples_keeps_key kv.1 t k kv.2 records h1 h2
    exact ih _ step.1 step.2

/-- If the response contains a sample at timestamp t under some key, every
merged record at t carries that key. -/
lemma mergeBatch_key_present (res : List (String × List Sample)) (k : String)
    (l : List Sample) (t : Int) (hres : (k, l) ∈ res) (ht : t ∈ l.map Sample.ts) :
    t ∈ (mergeBatch res).map Prod.fst ∧
      ∀ p ∈ mergeBatch res, p.1 = t → k ∈ p.2.map Prod.fst := by
  obtain ⟨pre, post, rfl⟩ := List.append_of_mem hres
  rw [mergeBatch, List.foldl_append, List.foldl_cons]
  have hest := insertSamples_establishes k t l
    (pre.foldl (fun r kv => insertSamples r kv.1 kv.2) []) ht
  exact mergeBatch_fold_keeps_key t k post _ hest.1 hest.2

/-- C4: For every batch response in which two different keys each contain a
sample at the same timestamp t, the Sample Merger produces exactly one
Record for t and that Record carries both keys, neither clobbering the
other; in particular the response mapping temp to a sample (100, 5) and
hum to samples (100, 60), (200, 61) merges to exactly the two Records
(100 maps ts 100, temp 5, hum 60) and (200 maps ts 200, hum 61), with
temp absent at timestamp 200. -/
theorem c4_sample_merger_shared_timestamp (res : List (String × List Sample))
    (k1 k2 : String) (l1 l2 : List Sample) (t : Int)
    (h12 : k1 ≠ k2) (h1 : (k1, l1) ∈ res) (h2 : (k2, l2) ∈ res)
    (ht1 : t ∈ l1.map Sample.ts) (ht2 : t ∈ l2.map Sample.ts) :
    ((mergeBatch res).filter (fun p => p.1 == t)).length = 1 ∧
    (∀ p ∈ mergeBatch res, p.1 = t →
      k1 ∈ p.2.map Prod.fst ∧ k2 ∈ p.2.map Prod.fst) ∧
    mergeBatch [("temp", [⟨100, 5⟩]), ("hum", [⟨100, 60⟩, ⟨200, 61⟩])] =
      [(100, [("ts", 100), ("temp", 5), ("hum", 60)]),
       (200, [("ts", 200), ("hum", 61)])] := by
  refine ⟨?_, ?_, ?_⟩
  · exact filter_fst_length_one t (mergeBatch res) (mergeBatch_nodup res)
      (mergeBatch_key_present res k1 l1 t h1 ht1).1
  · intro p hp hpt
    exact ⟨(mergeBatch_key_present res k1 l1 t h1 ht1).2 p hp hpt,
      (mergeBatch_key_present res k2 l2 t h2 ht2).2 p hp hpt⟩
  · rfl

/-- C4 witness: the spec's own worked example, temp and hum sharing
timestamp 100. -/
theorem c4_sample_merger_shared_timestamp_witness :
    ("temp" : String) ≠ "hum" ∧
    ((mergeBatch [("temp", [⟨100, 5⟩]), ("hum", [⟨100, 60⟩, ⟨200, 61⟩])]).filter
      (fun p => p.1 == 100)).length = 1 := by
  have h := c4_sample_merger_shared_timestamp
    [("temp", [⟨100, 5⟩]), ("hum", [⟨100, 60⟩, ⟨200, 61⟩])]
    "temp" "hum" [⟨100, 5⟩] [⟨100, 60⟩, ⟨200, 61⟩] 100
    (by decide) (by simp) (by simp) (by decide) (by decide)
  exact ⟨by decide, h.1⟩

/-- Setting a non-ts column on a fresh singleton row appends it. -/
lemma setField_singleton_ts (t : Int) (k : String) (v : Int) (hk : k ≠ "ts") :
    setField [("ts", t)] k v = [("ts", t), (k, v)] := by
  unfold setField
  rw [if_neg]
  · rfl
  · simp [Ne.symm hk]

/-- Inserting a sample list whose timestamps are fresh and pairwise
distinct appends one fresh row per sample, in order. -/
lemma insertSamples_fresh (key : String) :
    ∀ samples : List Sample, ∀ records : List (Int × Record),
      (∀ s ∈ samples, s.ts ∉ records.map Prod.fst) →
      (samples.map Sample.ts).Nodup →
      insertSamples records key samples =
        records ++ samples.map (fun s => (s.ts, setField [("ts", s.ts)] key s.value)) := by
  intro samples
  induction samples with
  | nil => intro records _ _; simp [insertSamples]
  | cons s rest ih =>
    intro records hfresh hnd
    have h1 : insertSample records key s =
        records ++ [(s.ts, setField [("ts", s.ts)] key s.value)] := by
      unfold insertSample
      rw [if_neg]
      rw [any_fst_beq]
      exact hfresh s (List.mem_cons_self s rest)
    show insertSamples (insertSample records key s) key rest = _
    rw [h1, ih (records ++ [(s.ts, setField [("ts", s.ts)] key s.value)]) ?fresh ?nd]
    · simp
    case fresh =>
      intro s' hs'
      rw [List.map_append, List.mem_append]
      rintro (h | h)
      · exact hfresh s' (List.mem_cons_of_mem s hs') h
      · rw [List.map_cons, List.nodup_cons] at hnd
        simp only [List.map_cons, List.map_nil, List.mem_singleton] at h
        exact hnd.1 (h ▸ List.mem_map.mpr ⟨s', hs', rfl⟩)
    case nd =>
      rw [List.map_cons, List.nodup_cons] at hnd
      exact hnd.2

/-- Row timestamps of freshly appended rows are the sample timestamps. -/
lemma map_fst_fresh_rows (key : String) (l : List Sample) :
    (l.map (fun s => (s.ts, setField [("ts", s.ts)] key s.value))).map Prod.fst =
      l.map Sample.ts := by
  rw [List.map_map]
  rfl

/-- C5 counterexample: the claim quantifies over arbitrary sample lists
with disjoint timestamp sets; a list repeating a timestamp internally
still satisfies the disjointness premise, yet the merger collapses the
repeated timestamp into one Record, so the Record count falls short of
the sum of the lengths. -/
theorem c5_sample_merger_disjoint_counts_counterexample :
    (∀ t ∈ ([⟨100, 1⟩, ⟨100, 2⟩] : List Sample).map Sample.ts,
      t ∉ ([⟨200, 3⟩] : List Sample).map Sample.ts) ∧
    (mergeBatch [("a", [⟨100, 1⟩, ⟨100, 2⟩]), ("b", [⟨200, 3⟩])]).length = 2 ∧
    ([⟨100, 1⟩, ⟨100, 2⟩] : List Sample).length + ([⟨200, 3⟩] : List Sample).length = 3 := by
  refine ⟨by decide, rfl, rfl⟩

/-- C5 (amended): for two single-key sample lists with pairwise-distinct
timestamps within each list, disjoint timestamp sets across the lists,
and keys distinct from the reserved ts column, the Sample Merger yields a
Record count equal to the sum of both lists' lengths, with every Record
holding exactly one column besides ts. -/
theorem c5_sample_merger_disjoint_counts (k1 k2 : String) (l1 l2 : List Sample)
    (hk1 : k1 ≠ "ts") (hk2 : k2 ≠ "ts")
    (hnd1 : (l1.map Sample.ts).Nodup) (hnd2 : (l2.map Sample.ts).Nodup)
    (hdisj : ∀ t ∈ l1.map Sample.ts, t ∉ l2.map Sample.ts) :
    (mergeBatch [(k1, l1), (k2, l2)]).length = l1.length + l2.length ∧
    ∀ p ∈ mergeBatch [(k1, l1), (k2, l2)],
      ((p.2.map Prod.fst).filter (fun c => !(c == "ts"))).length = 1 := by
  have hm : mergeBatch [(k1, l1), (k2, l2)] =
      l1.map (fun s => (s.ts, setField [("ts", s.ts)] k1 s.value)) ++
      l2.map (fun s => (s.ts, setField [("ts", s.ts)] k2 s.value)) := by
    show insertSamples (insertSamples [] k1 l1) k2 l2 = _
    rw [insertSamples_fresh k1 l1 [] (by simp) hnd1, List.nil_append,
      insertSamples_fresh k2 l2 _ ?fresh hnd2]
    case fresh =>
      intro s hs
      rw [map_fst_fresh_rows]
      intro hmem
      exact hdisj s.ts hmem (List.mem_map.mpr ⟨s, hs, rfl⟩)
  constructor
  · rw [hm]
    simp
  · intro p hp
    rw [hm, List.mem_append] at hp
    rcases hp with hp | hp
    · obtain ⟨s, _, rfl⟩ := List.mem_map.mp hp
      rw [setField_singleton_ts s.ts k1 s.value hk1]
      have hb : (k1 == "ts") = false := by simp [hk1]
      simp [List.filter, hb]
    · obtain ⟨s, _, rfl⟩ := List.mem_map.mp hp
      rw [setField_singleton_ts s.ts k2 s.value hk2]
      have hb : (k2 == "ts") = false := by simp [hk2]
      simp [List.filter, hb]

/-- C5 witness: temp samples at 100 and hum samples at 200 and 300 merge
into three single-column Records. -/
theorem c5_sample_merger_disjoint_counts_witness :
    (mergeBatch [("temp", [⟨100, 5⟩]), ("hum", [⟨200, 61⟩, ⟨300, 62⟩])]).length = 3 := by
  have h := c5_sample_merger_disjoint_counts "temp" "hum"
    [⟨100, 5⟩] [⟨200, 61⟩, ⟨300, 62⟩]
    (by decide) (by decide) (by decide) (by decide) (by decide)
  exact h.1

/-! ## Cross-batch accumulation

Embedding of telemetry.py lines 214-217: per batch, the merged records
are turned into rows (list(records.values())) and appended to the
running DataFrame with pd.concat; the concat is skipped when the batch
produced no records. Rows of the DataFrame are modelled as the list of
row dicts, in order. -/

/-- Rows contributed by one batch, in records-dict insertion order. -/
def batchRows (res : List (String × List Sample)) : List Record :=
  (mergeBatch res).map Prod.snd

/-- The accumulation loop over all batches of one device. -/
def accumulate (batches : List (List (String × List Sample))) : List Record :=
  batches.foldl
    (fun df res => if 0 < (mergeBatch res).length then df ++ batchRows res else df) []

/-- Reading a column of a row dict. -/
def lookupField (r : Record) (k : String) : Option Int :=
  (r.find? (fun p => p.1 == k)).map Prod.snd

/-- One accumulation step always appends the batch rows (the guard only
skips appending an empty list). -/
lemma accumulate_step (df : List Record) (res : List (String × List Sample)) :
    (if 0 < (mergeBatch res).length then df ++ batchRows res else df) =
      df ++ batchRows res := by
  by_cases h : 0 < (mergeBatch res).length
  · rw [if_pos h]
  · rw [if_neg h]
    have hnil : mergeBatch res = [] := List.eq_nil_of_length_eq_zero (by omega)
    simp [batchRows, hnil]

/-- The accumulation loop is plain concatenation of the batch rows. -/
lemma accumulate_eq_join :
    ∀ batches : List (List (String × List Sample)), ∀ df : List Record,
      batches.foldl
        (fun df res => if 0 < (mergeBatch res).length then df ++ batchRows res else df) df =
      df ++ (batches.map batchRows).flatten := by
  intro batches
  induction batches with
  | nil => intro df; simp
  | cons res rest ih =>
    intro df
    rw [List.foldl_cons, accumulate_step, ih, List.map_cons, List.flatten]
    simp

/-- Filtering distributes over a join of row lists, counting per part. -/
lemma filter_length_join (p : Record → Bool) :
    ∀ ls : List (List Record),
      ((ls.flatten).filter p).length = (ls.map (fun l => (l.filter p).length)).sum := by
  intro ls
  induction ls with
  | nil => simp
  | cons l rest ih =>
    simp [List.filter_append, ih]
    rfl

/-- The accumulated table is the concatenation of all batch row lists. -/
lemma accumulate_flatten (batches : List (List (String × List Sample))) :
    accumulate batches = (batches.map batchRows).flatten := by
  rw [accumulate, accumulate_eq_join batches []]
  rfl

/-- C3 counterexample: two batches both holding a sample at timestamp 100
are combined by concatenation, so the accumulated table keeps two Records
at that timestamp, the earlier batch's value included — not one Record
with the later batch's values as mapping union would give. -/
theorem c3_cross_batch_union_counterexample :
    accumulate [[("temp", [⟨100, 1⟩])], [("temp", [⟨100, 2⟩])]] =
      [[("ts", 100), ("temp", 1)], [("ts", 100), ("temp", 2)]] ∧
    ((accumulate [[("temp", [⟨100, 1⟩])], [("temp", [⟨100, 2⟩])]]).filter
      (fun r => lookupField r "ts" == some 100)).length = 2 ∧
    ((accumulate [[("temp", [⟨100, 1⟩])], [("temp", [⟨100, 2⟩])]]).filter
      (fun r => lookupField r "ts" == some 100)).length ≠ 1 := by
  refine ⟨rfl, rfl, by decide⟩

/-- C3 (amended): combining the per-batch Record tables across successive
batches is list concatenation, not mapping union: the accumulated table
is exactly the join of the per-batch row lists, and the number of rows at
any timestamp is the sum of the per-batch counts, so a timestamp occurring
in several batches keeps one row per batch, none overwritten. -/
theorem c3_cross_batch_concatenation
    (batches : List (List (String × List Sample))) :
    accumulate batches = (batches.map batchRows).flatten ∧
    ∀ t : Int,
      ((accumulate batches).filter (fun r => lookupField r "ts" == some t)).length =
        (batches.map
          (fun res => ((batchRows res).filter
            (fun r => lookupField r "ts" == some t)).length)).sum := by
  have hj := accumulate_flatten batches
  refine ⟨hj, fun t => ?_⟩
  rw [hj, filter_length_join]
  rw [List.map_map]
  rfl

/-! ## DataFrame columns

Embedding of the column behaviour of telemetry.py lines 186 and 214-217:
the DataFrame starts as pd.DataFrame(columns=["ts", *telemetry_keys]) and
pd.concat unions in the columns of each appended part, keeping existing
columns first and adding newly appearing columns in order of first
appearance. -/

/-- Column names appearing in a list of rows, in order of appearance. -/
def rowKeys (rows : List Record) : List String :=
  (rows.map (fun r => r.map Prod.fst)).flatten

/-- Add one column name if not yet present. -/
def addCol (cols : List String) (k : String) : List String :=
  if cols.contains k then cols else cols ++ [k]

/-- Columns of the accumulated DataFrame after all batches. -/
def dfColumns (tkeys : List String)
    (batches : List (List (String × List Sample))) : List String :=
  batches.foldl
    (fun cols res =>
      if 0 < (mergeBatch res).length then (rowKeys (batchRows res)).foldl addCol cols
      else cols)
    ("ts" :: tkeys)

/-- The contains test agrees with membership for strings. -/
lemma contains_iff_mem (l : List String) (a : String) :
    l.contains a = true ↔ a ∈ l := by
  induction l with
  | nil => simp
  | cons b l ih =>
    rw [List.contains_cons, Bool.or_eq_true, beq_iff_eq, ih, List.mem_cons]

/-- Membership after adding one column. -/
lemma addCol_mem (cols : List String) (k c : String) :
    c ∈ addCol cols k ↔ c ∈ cols ∨ c = k := by
  unfold addCol
  by_cases h : cols.contains k = true
  · rw [if_pos h]
    rw [contains_iff_mem] at h
    constructor
    · exact Or.inl
    · rintro (hc | rfl)
      · exact hc
      · exact h
  · rw [if_neg h]
    simp

/-- Membership after folding in a list of column names. -/
lemma foldl_addCol_mem (c : String) :
    ∀ ks cols : List String, c ∈ ks.foldl addCol cols ↔ c ∈ cols ∨ c ∈ ks := by
  intro ks
  induction ks with
  | nil => intro cols; simp
  | cons k rest ih =>
    intro cols
    rw [List.foldl_cons, ih, addCol_mem]
    simp [or_assoc, eq_comm]

/-- A name appears among a row list's keys iff some row carries it. -/
lemma rowKeys_mem (rows : List Record) (c : String) :
    c ∈ rowKeys rows ↔ ∃ r ∈ rows, c ∈ r.map Prod.fst := by
  unfold rowKeys
  rw [List.mem_flatten]
  constructor
  · rintro ⟨l, hl, hc⟩
    obtain ⟨r, hr, rfl⟩ := List.mem_map.mp hl
    exact ⟨r, hr, hc⟩
  · rintro ⟨r, hr, hc⟩
    exact ⟨r.map Prod.fst, List.mem_map.mpr ⟨r, hr, rfl⟩, hc⟩

/-- One accumulation step of the column fold, membership view. -/
lemma dfColumns_step_mem (cols : List String) (res : List (String × List Sample))
    (c : String) :
    (c ∈ (if 0 < (mergeBatch res).length
        then (rowKeys (batchRows res)).foldl addCol cols else cols)) ↔
      c ∈ cols ∨ c ∈ rowKeys (batchRows res) := by
  by_cases h : 0 < (mergeBatch res).length
  · rw [if_pos h, foldl_addCol_mem]
  · rw [if_neg h]
    have hnil : mergeBatch res = [] := List.eq_nil_of_length_eq_zero (by omega)
    simp [batchRows, hnil, rowKeys]

/-- Membership in the final column list, fold version. -/
lemma dfColumns_fold_mem (c : String) :
    ∀ batches : List (List (String × List Sample)), ∀ cols : List String,
      (c ∈ batches.foldl
        (fun cols res =>
          if 0 < (mergeBatch res).length then (rowKeys (batchRows res)).foldl addCol cols
          else cols) cols) ↔
        c ∈ cols ∨ ∃ res ∈ batches, c ∈ rowKeys (batchRows res) := by
  intro batches
  induction batches with
  | nil => intro cols; simp
  | cons res rest ih =>
    intro cols
    rw [List.foldl_cons, ih, dfColumns_step_mem]
    constructor
    · rintro ((h | h) | ⟨res', hres', hc⟩)
      · exact Or.inl h
      · exact Or.inr ⟨res, List.mem_cons_self res rest, h⟩
      · exact Or.inr ⟨res', List.mem_cons_of_mem res hres', hc⟩
    · rintro (h | ⟨res', hres', hc⟩)
      · exact Or.inl (Or.inl h)
      · rcases List.mem_cons.mp hres' with rfl | hres'
        · exact Or.inl (Or.inr hc)
        · exact Or.inr ⟨res', hres', hc⟩

/-- C6 counterexample: with exported keys temp and hum but samples only
for temp, the table is non-empty yet the persisted column set is ts,
temp, hum — hum appears although no Record carries it, refuting the
claim that the column set is ts plus only the keys present in some
Record. -/
theorem c6_columns_counterexample :
    accumulate [[("temp", [⟨100, 5⟩])]] = [[("ts", 100), ("temp", 5)]] ∧
    dfColumns ["temp", "hum"] [[("temp", [⟨100, 5⟩])]] = ["ts", "temp", "hum"] ∧
    "hum" ∈ dfColumns ["temp", "hum"] [[("temp", [⟨100, 5⟩])]] ∧
    (∀ r ∈ accumulate [[("temp", [⟨100, 5⟩])]], "hum" ∉ r.map Prod.fst) := by
  refine ⟨rfl, rfl, by decide, by decide⟩

/-- C6 (amended): for a device whose export produces a non-empty Table,
the persisted column set equals ts plus all exported telemetry keys plus
any key present in some Record; exported keys with no samples still
appear (as all-null columns), so the column set is not limited to the
keys present in the Records. -/
theorem c6_persisted_columns (tkeys : List String)
    (batches : List (List (String × List Sample)))
    (hne : accumulate batches ≠ []) (c : String) :
    c ∈ dfColumns tkeys batches ↔
      c = "ts" ∨ c ∈ tkeys ∨ ∃ r ∈ accumulate batches, c ∈ r.map Prod.fst := by
  rw [dfColumns, dfColumns_fold_mem, List.mem_cons]
  have hrows : (∃ res ∈ batches, c ∈ rowKeys (batchRows res)) ↔
      ∃ r ∈ accumulate batches, c ∈ r.map Prod.fst := by
    rw [accumulate_flatten batches]
    constructor
    · rintro ⟨res, hres, hc⟩
      rw [rowKeys_mem] at hc
      obtain ⟨r, hr, hcr⟩ := hc
      exact ⟨r, List.mem_flatten.mpr ⟨batchRows res, List.mem_map.mpr ⟨res, hres, rfl⟩, hr⟩, hcr⟩
    · rintro ⟨r, hr, hcr⟩
      obtain ⟨l, hl, hrl⟩ := List.mem_flatten.mp hr
      obtain ⟨res, hres, rfl⟩ := List.mem_map.mp hl
      exact ⟨res, hres, (rowKeys_mem _ c).mpr ⟨r, hrl, hcr⟩⟩
  rw [hrows]
  tauto

/-- C6 witness: the amended column characterisation at a concrete
non-empty table. -/
theorem c6_persisted_columns_witness :
    accumulate [[("temp", [⟨100, 5⟩]), ("hum", [⟨150, 60⟩])]] ≠ [] ∧
    ("hum" ∈ dfColumns ["temp", "hum"] [[("temp", [⟨100, 5⟩]), ("hum", [⟨150, 60⟩])]] ↔
      "hum" = "ts" ∨ "hum" ∈ ["temp", "hum"] ∨
      ∃ r ∈ accumulate [[("temp", [⟨100, 5⟩]), ("hum", [⟨150, 60⟩])]],
        "hum" ∈ r.map Prod.fst) := by
  refine ⟨by decide, c6_persisted_columns ["temp", "hum"]
    [[("temp", [⟨100, 5⟩]), ("hum", [⟨150, 60⟩])]] (by decide) "hum"⟩

/-! ## Final sort

Embedding of telemetry.py line 226: df.sort_values("ts") orders the
accumulated rows by their ts column value (the sort key; rows keep their
contents). The model sorts by the ts column with a comparison sort. -/

/-- The sort key of a row: its ts column value. -/
def tsOf (r : Record) : Int := (lookupField r "ts").getD 0

/-- Row comparison used by the final sort. -/
def rowLe (a b : Record) : Prop := tsOf a ≤ tsOf b

instance : DecidableRel rowLe := fun a b => inferInstanceAs (Decidable (tsOf a ≤ tsOf b))

instance : IsTotal Record rowLe := ⟨fun a b => le_total (tsOf a) (tsOf b)⟩

instance : IsTrans Record rowLe := ⟨fun _ _ _ hab hbc => le_trans hab hbc⟩

/-- The final sort step applied to the accumulated table. -/
def sortTable (rows : List Record) : List Record := List.insertionSort rowLe rows

/-- C7: For every sequence of per-batch Record lists, the Table obtained
by concatenating them through the accumulation loop and then applying the
final sort step is sorted ascending by timestamp — for every choice and
order of the batches — and holds exactly the accumulated rows. -/
theorem c7_sorted_after_final_sort
    (batches : List (List (String × List Sample))) :
    List.Sorted rowLe (sortTable (accumulate batches)) ∧
    List.Perm (sortTable (accumulate batches)) (accumulate batches) := by
  exact ⟨List.sorted_insertionSort rowLe (accumulate batches),
    List.perm_insertionSort rowLe (accumulate batches)⟩

/-! ## Telemetry Exporter orchestration

Embedding of the per-device part of telemetry.py lines 148-245. A device
is abstracted by the data the external collaborators answer for it: its
id, its attribute response, its telemetry key list, and the per-batch
telemetry responses. Telemetry values and attribute values are modelled
as integers. -/

structure DeviceData where
  id : String
  attrs : List (String × Int)
  keys : List String
  responses : List (List (String × List Sample))

/-- The meta dict assembled per device; file and size stay none when the
device's table is empty (lines 222-224 skip before setting them). -/
structure DeviceMeta where
  device_id : String
  attributes : List (String × Int)
  keys : List String
  exported_keys : List String
  file : Option String
  size : Option Nat
deriving DecidableEq, Repr

/-- The telemetry key filter of lines 175-179: keep the device's keys
that occur in the caller's comma-separated list; none models an absent
or empty --keys argument (no filtering). -/
def filterKeys (telemetry_keys : List String) (filt : Option (List String)) : List String :=
  match filt with
  | none => telemetry_keys
  | some fs => telemetry_keys.filter (fun k => fs.contains k)

/-- Output file name of lines 230-232. -/
def fileName (startDate endDate id fmt : String) : String :=
  startDate ++ "_" ++ endDate ++ "_" ++ id ++ "." ++ fmt

/-- One device iteration of the loop at lines 149-239: returns the meta
dict, the written file (name and sorted rows) if any, and whether the
empty-table warning was logged. -/
def processDevice (filt : Option (List String)) (startDate endDate fmt : String)
    (d : DeviceData) : DeviceMeta × Option (String × List Record) × Bool :=
  let exported := filterKeys d.keys filt
  let df := accumulate d.responses
  if df.length = 0 then
    (⟨d.id, d.attrs, d.keys, exported, none, none⟩, none, true)
  else
    let sorted := sortTable df
    let out := fileName startDate endDate d.id fmt
    (⟨d.id, d.attrs, d.keys, exported, some out, some sorted.length⟩,
      some (out, sorted), false)

/-- The device loop: every enumerated device is processed in order. -/
def runResults (filt : Option (List String)) (startDate endDate fmt : String)
    (devices : List DeviceData) : List (DeviceMeta × Option (String × List Record) × Bool) :=
  devices.map (processDevice filt startDate endDate fmt)

/-- The metadata written at lines 241-245: all_meta.append(meta) sits
outside the device loop, so only the meta of the last iterated device is
appended; with zero devices the name meta is unbound and the script
aborts with a NameError before writing (modelled as none). -/
def runMetadata (filt : Option (List String)) (startDate endDate fmt : String)
    (devices : List DeviceData) : Option (List DeviceMeta) :=
  match (runResults filt startDate endDate fmt devices).getLast? with
  | none => none
  | some r => some [r.1]

/-- Evaluation of one device iteration when its table is empty. -/
lemma processDevice_empty (filt : Option (List String)) (startDate endDate fmt : String)
    (d : DeviceData) (h : accumulate d.responses = []) :
    processDevice filt startDate endDate fmt d =
      (⟨d.id, d.attrs, d.keys, filterKeys d.keys filt, none, none⟩, none, true) := by
  unfold processDevice
  rw [h]
  rfl

/-- C8: For every device whose accumulated Table is empty after all
batches, the exporter writes no output file for that device, records the
empty-table warning, and the device loop still processes the remaining
devices (the empty result is non-fatal to the run). -/
theorem c8_empty_table_skipped (filt : Option (List String))
    (startDate endDate fmt : String) (d : DeviceData)
    (h : accumulate d.responses = []) :
    (processDevice filt startDate endDate fmt d).2.1 = none ∧
    (processDevice filt startDate endDate fmt d).2.2 = true ∧
    (∀ rest : List DeviceData,
      runResults filt startDate endDate fmt (d :: rest) =
        processDevice filt startDate endDate fmt d ::
          runResults filt startDate endDate fmt rest) := by
  refine ⟨?_, ?_, fun rest => rfl⟩ <;>
    rw [processDevice_empty filt startDate endDate fmt d h]

/-- C8 witness: a device with no batch responses has an empty table; it
yields no file and the warning flag. -/
theorem c8_empty_table_skipped_witness :
    accumulate (DeviceData.mk "dev1" [] [] []).responses = [] ∧
    (processDevice none "2023-01-01" "2023-01-31" "csv"
      (DeviceData.mk "dev1" [] [] [])).2.1 = none ∧
    (processDevice none "2023-01-01" "2023-01-31" "csv"
      (DeviceData.mk "dev1" [] [] [])).2.2 = true := by
  have h := c8_empty_table_skipped none "2023-01-01" "2023-01-31" "csv"
    (DeviceData.mk "dev1" [] [] []) rfl
  exact ⟨rfl, h.1, h.2.1⟩

/-- C2: the claim says the metadata file holds one entry per processed
device; the code appends outside the loop, so with two devices the
written metadata list holds only the last device's entry. -/
theorem c2_metadata_single_append_bug :
    runMetadata none "2023-01-01" "2023-01-31" "csv"
      [DeviceData.mk "dev1" [] [] [], DeviceData.mk "dev2" [] [] []] =
      some [DeviceMeta.mk "dev2" [] [] [] none none] ∧
    (runMetadata none "2023-01-01" "2023-01-31" "csv"
      [DeviceData.mk "dev1" [] [] [], DeviceData.mk "dev2" [] [] []]).map
        List.length ≠ some 2 := by
  refine ⟨rfl, by decide⟩

/-! ## Single-entity attribute lookup

Embedding of get_attribute.py lines 31-99. The entity query response is
modelled by its data list; each entry carries the entity id and the
latest attribute values returned for the requested latestValues keys
(the query requests both the match attribute and the wanted attribute,
so the response is modelled as a total mapping from key to value). -/

structure EntityData where
  entity_id : String
  latest : String → String

/-- The body of get_attribute after the query: raise ValueError unless
exactly one device matched, otherwise return the wanted attribute value
of the single match (lines 81-99). -/
def get_attribute (data : List EntityData)
    (matchAttributeKey matchAttributeValue getAttributeKey : String) :
    Except String String :=
  if data.length ≠ 1 then
    Except.error
      ("Expected exactly one device with " ++ matchAttributeKey ++ " "
        ++ matchAttributeValue ++ ", found " ++ toString data.length)
  else
    match data with
    | d :: _ => Except.ok (d.latest getAttributeKey)
    | [] => Except.error "unreachable"

/-- C9: get_attribute raises a ValueError if and only if the entity query
returned a number of matching devices different from exactly one; with
exactly one match it returns that device's value for the requested
attribute without raising. -/
theorem c9_get_attribute_value_error (data : List EntityData)
    (matchAttributeKey matchAttributeValue getAttributeKey : String) :
    ((∃ msg, get_attribute data matchAttributeKey matchAttributeValue getAttributeKey =
      Except.error msg) ↔ data.length ≠ 1) ∧
    (∀ d : EntityData, data = [d] →
      get_attribute data matchAttributeKey matchAttributeValue getAttributeKey =
        Except.ok (d.latest getAttributeKey)) := by
  constructor
  · constructor
    · rintro ⟨msg, hmsg⟩ hlen
      unfold get_attribute at hmsg
      rw [if_neg (by simp [hlen])] at hmsg
      cases data with
      | nil => simp at hlen
      | cons d rest => simp at hmsg
    · intro hne
      unfold get_attribute
      rw [if_pos hne]
      exact ⟨_, rfl⟩
  · rintro d rfl
    unfold get_attribute
    rw [if_neg (by simp)]

/-- C9 witness: a single-element response yields the attribute value. -/
theorem c9_get_attribute_value_error_witness :
    get_attribute [EntityData.mk "id1" (fun k => k ++ "-value")]
      "serialNumber" "42" "location" = Except.ok "location-value" := by
  exact (c9_get_attribute_value_error [EntityData.mk "id1" (fun k => k ++ "-value")]
    "serialNumber" "42" "location").2 (EntityData.mk "id1" (fun k => k ++ "-value")) rfl

/-- C10: the exported key list is the device's key list filtered by
membership in the caller's filter, hence an order-preserving subsequence
of the device's key list that never contains a foreign key, is
duplicate-free whenever the device's key list is, and depends on the
filter only through membership (so repeating a key in the filter changes
nothing). -/
theorem c10_exported_keys_subsequence (tkeys fs : List String) :
    (filterKeys tkeys (some fs)).Sublist tkeys ∧
    (tkeys.Nodup → (filterKeys tkeys (some fs)).Nodup) ∧
    (∀ k ∈ filterKeys tkeys (some fs), k ∈ tkeys) ∧
    (∀ fs' : List String, (∀ k, k ∈ fs ↔ k ∈ fs') →
      filterKeys tkeys (some fs) = filterKeys tkeys (some fs')) ∧
    filterKeys tkeys (some (fs ++ fs)) = filterKeys tkeys (some fs) := by
  refine ⟨List.filter_sublist tkeys, fun h => h.filter _,
    fun k hk => (List.mem_filter.mp hk).1, ?_, ?_⟩
  · intro fs' hiff
    show tkeys.filter (fun k => fs.contains k) = tkeys.filter (fun k => fs'.contains k)
    apply List.filter_congr
    intro a _
    rw [Bool.eq_iff_iff, contains_iff_mem, contains_iff_mem]
    exact hiff a
  · show tkeys.filter (fun k => (fs ++ fs).contains k) = tkeys.filter (fun k => fs.contains k)
    apply List.filter_congr
    intro a _
    rw [Bool.eq_iff_iff, contains_iff_mem, contains_iff_mem, List.mem_append, or_self]

/-- C10 witness: keys c and a requested out of order and with a repeat
still export in device order, without duplicates. -/
theorem c10_exported_keys_subsequence_witness :
    (["a", "b", "c"] : List String).Nodup ∧
    filterKeys ["a", "b", "c"] (some ["c", "a", "c"]) = ["a", "c"] ∧
    (filterKeys ["a", "b", "c"] (some ["c", "a", "c"])).Nodup := by
  have h := c10_exported_keys_subsequence ["a", "b", "c"] ["c", "a", "c"]
  exact ⟨by decide, by rfl, h.2.1 (by decide)⟩
